import Mathlib

/-!
Shallow embedding of `pygcp/vertex.py` (class `Embedding`): the embedding
batch client built on the Vertex AI text-embedding provider.

Modelling conventions, fixed once for the whole file:

* An embedding vector (`TextEmbedding.values` in the SDK) is a `List ℚ`;
  the provider's `TextEmbedding` objects are identified with their `values`
  payload, so `[_e.values for _e in embed]` and `embed[0].values` are the
  identity / head projection at this level of abstraction.
* The provider (`self.model.get_embeddings`) is a black box that, for a given
  batch and attempt index, either raises (modelled as `none`) or returns one
  vector per input (modelled as `some`).  The attempt index is the retry
  counter of the loop issuing the call, so a `Model` value fixes the outcome
  of every provider call the client can make.
* Python exceptions are modelled with `Except PyError`; `time.sleep` is
  modelled by recording the slept durations; provider traffic is modelled by
  recording the list of batches sent, one entry per provider call.
-/

namespace PyGCP

/-- An embedding vector: the `values` list of a provider `TextEmbedding`. -/
abbrev Vec := List ℚ

/-- The embedding provider: outcome of `model.get_embeddings(batch)` when the
issuing retry loop is on attempt `r`.  `none` models a raised exception. -/
structure Model where
  getEmbeddings : List String → Nat → Option (List Vec)

/-- The configuration attributes `__init__` stores on a fully constructed
`Embedding` instance (`vertex.py` lines 14-22). -/
structure Config where
  model_version : String
  api_request_limit : Nat
  api_retry_limit : Nat
  api_retry_delay : ℤ
  api_backoff_factor : ℤ
  size : Nat
  verbose : Bool
deriving DecidableEq, Repr

/-- The Python exception classes the embedded code can raise. -/
inductive PyError
  | attributeError
  | typeError
  | indexError
  | valueError
deriving DecidableEq, Repr

/-- Observable outcome of one `get_embeddings_with_backoff` invocation:
the returned value (`none` = the trailing bare `return`), the batches sent to
the provider (one per call, in order), and the `time.sleep` durations. -/
structure BackoffResult where
  res : Option (List Vec)
  calls : List (List String)
  sleeps : List ℤ
deriving DecidableEq, Repr

/-- The retry loop of `get_embeddings_with_backoff` (`vertex.py` lines 60-68):
`for _r in range(retry_limit): try: return model.get_embeddings(input_data)
except: sleep(delay * factor ** _r)`, then a bare `return`.  `fuel` counts the
remaining iterations of the `range`, `r` is the current value of `_r`. -/
def backoffAux (M : Model) (input_data : List String) (delay factor : ℤ) :
    Nat → Nat → BackoffResult
  | 0, _ => ⟨none, [], []⟩
  | fuel + 1, r =>
    match M.getEmbeddings input_data r with
    | some result => ⟨some result, [input_data], []⟩
    | none =>
      let wait := delay * factor ^ r
      let rest := backoffAux M input_data delay factor fuel (r + 1)
      ⟨rest.res, input_data :: rest.calls, wait :: rest.sleeps⟩

namespace Embedding

/-- `Embedding.get_embeddings_with_backoff` on an already-listed batch
(`input_kind="list"`; the `"str"` case wraps first and is inlined at the one
call site, `Embedding.string`). -/
def get_embeddings_with_backoff (M : Model) (cfg : Config)
    (input_data : List String) : BackoffResult :=
  backoffAux M input_data cfg.api_retry_delay cfg.api_backoff_factor
    cfg.api_retry_limit 0

/-- `Embedding.string` (`vertex.py` lines 24-36): wrap the input in a
singleton batch, delegate to the backoff primitive, return `embed[0].values`.
`embed[0]` on the `None` sentinel raises `TypeError`; on an empty list it
raises `IndexError`.  Also returns the provider batches sent. -/
def string (M : Model) (cfg : Config) (input_string : String) :
    Except PyError Vec × List (List String) :=
  let embed := get_embeddings_with_backoff M cfg [input_string]
  (match embed.res with
   | none => .error .typeError
   | some l =>
     match l[0]? with
     | none => .error .indexError
     | some v => .ok v,
   embed.calls)

end Embedding

/-- Writing vectors into consecutive rows of the output buffer:
`a[j] = v` for `v` running over `vs` and `j` counting up from the given start.
(`List.set` out of range is a no-op; `assignRows` checks bounds first, the
way numpy raises before any out-of-range write becomes observable.) -/
def writeRows (a : List Vec) (j : Nat) : List Vec → List Vec
  | [] => a
  | v :: vs => writeRows (a.set j v) (j + 1) vs

/-- The inner loop `for iy, j in enumerate(range(ix1, ix1 + len(subset_seq))):
a[j] = embed[iy]` of `Embedding.sequence` (`vertex.py` lines 118-119),
together with the conditions under which Python/numpy would raise:
`embed[iy]` out of range is an `IndexError`, `a[j]` out of range is an
`IndexError`, and numpy rejects a row whose length differs from the buffer
width (`ValueError`).  The checks are hoisted in front of the writes: when one
fails the Python loop raises and the partially written buffer is discarded, so
the two presentations are observationally equal. -/
def assignRows (size : Nat) (a : List Vec) (ix1 subLen : Nat)
    (embed : List Vec) : Except PyError (List Vec) :=
  if subLen ≤ embed.length then
    if ix1 + subLen ≤ a.length then
      if (embed.take subLen).all (fun v => v.length == size) then
        .ok (writeRows a ix1 (embed.take subLen))
      else .error .valueError
    else .error .indexError
  else .error .indexError

namespace Embedding

/-- The chunk loop `for i in range(0, n, api_request_limit)` of
`Embedding.sequence` (`vertex.py` lines 111-119): `fuel` is the number of
remaining chunk indices of the `range`, `i` the current start offset, `a` the
output buffer.  Each iteration slices `input_seq[i : i + request_limit]`,
calls the backoff primitive, returns `a` as-is when it yields the `None`
sentinel (`return a  # might not be a good idea?`), and otherwise writes the
returned vectors into rows `i, i+1, ...`.  Alongside the result it returns
the provider batches sent, one entry per provider call, in order. -/
def seqLoop (M : Model) (cfg : Config) (input_seq : List String) :
    Nat → Nat → List Vec → Except PyError (List Vec) × List (List String)
  | 0, _, a => (.ok a, [])
  | fuel + 1, i, a =>
    if i < input_seq.length then
      let subset_seq := (input_seq.drop i).take cfg.api_request_limit
      let b := get_embeddings_with_backoff M cfg subset_seq
      match b.res with
      | none => (.ok a, b.calls)
      | some embed =>
        match assignRows cfg.size a i subset_seq.length embed with
        | .error e => (.error e, b.calls)
        | .ok a2 =>
          let rest := seqLoop M cfg input_seq fuel (i + cfg.api_request_limit) a2
          (rest.1, b.calls ++ rest.2)
    else (.ok a, [])

/-- `Embedding.sequence` (`vertex.py` lines 92-121).  When
`n <= api_request_limit` it returns the backoff primitive's result directly
(which is `None` when every retry failed); otherwise it allocates
`np.zeros([n, size])` and runs the chunk loop.  `range(0, n, 0)` raises
`ValueError` in Python, covered by the `request_limit = 0` branch.  The
second component is the trace of provider batches sent. -/
def sequence (M : Model) (cfg : Config) (input_seq : List String) :
    Except PyError (Option (List Vec)) × List (List String) :=
  let n := input_seq.length
  if n ≤ cfg.api_request_limit then
    let b := get_embeddings_with_backoff M cfg input_seq
    (.ok b.res, b.calls)
  else if cfg.api_request_limit = 0 then
    (.error .valueError, [])
  else
    let fuel := (n + cfg.api_request_limit - 1) / cfg.api_request_limit
    let a0 := List.replicate n (List.replicate cfg.size 0)
    let r := seqLoop M cfg input_seq fuel 0 a0
    (match r.1 with
     | .error e => .error e
     | .ok a => .ok (some a),
     r.2)

/-- The retry loop of the duplicate implementation `Embedding._sequence`
(`vertex.py` lines 84-88): `embed = None; for _arl in range(retry_limit):
try: embed = model.get_embeddings(input_seq) except: pass`.  Every iteration
runs regardless of earlier successes; a failing attempt leaves `embed` at its
previous value.  Returns the final `embed` and the number of provider calls
made. -/
def sequenceDupAux (M : Model) (input_seq : List String) :
    Nat → Nat → Option (List Vec) → Option (List Vec) × Nat
  | 0, _, embed => (embed, 0)
  | fuel + 1, r, embed =>
    let embed2 :=
      match M.getEmbeddings input_seq r with
      | some result => some result
      | none => embed
    let rest := sequenceDupAux M input_seq fuel (r + 1) embed2
    (rest.1, rest.2 + 1)

/-- `Embedding._sequence` (`vertex.py` lines 70-90): the duplicate retry
implementation.  After the loop, `[_e.values for _e in embed]` raises
`TypeError` when `embed` is still `None` (every attempt failed) and is the
identity at this abstraction otherwise.  The second component counts the
provider calls made. -/
def sequenceDup (M : Model) (cfg : Config) (input_seq : List String) :
    Except PyError (List Vec) × Nat :=
  let r := sequenceDupAux M input_seq cfg.api_retry_limit 0 none
  (match r.1 with
   | none => .error .typeError
   | some embed => .ok embed,
   r.2)

end Embedding

/-- The successive batches `input_seq[i : i + rl]` that the chunk loop of
`sequence` slices, starting at offset `i` with `fuel` chunk indices left:
the trace of provider traffic when every chunk succeeds on its first
attempt. -/
def chunkCalls (input_seq : List String) (rl : Nat) :
    Nat → Nat → List (List String)
  | 0, _ => []
  | fuel + 1, i =>
    if i < input_seq.length then
      ((input_seq.drop i).take rl) :: chunkCalls input_seq rl fuel (i + rl)
    else []

/-- A deterministic, never-failing provider: each batch is answered on every
attempt by mapping a fixed per-string embedding function over it. -/
def detProvider (f : String → Vec) : Model :=
  ⟨fun input _ => some (input.map f)⟩

/-- A provider honouring the documented contract: a successful call returns
one vector per input string, each of dimensionality `D`. -/
def wellBehaved (M : Model) (D : Nat) : Prop :=
  ∀ input r result, M.getEmbeddings input r = some result →
    result.length = input.length ∧ ∀ v ∈ result, v.length = D

/-! ### Construction (`Embedding.__init__`)

`__init__` assigns instance attributes one by one; a method called in the
middle of the sequence sees only the attributes assigned so far, and reading
a not-yet-assigned attribute raises `AttributeError` (the class defines no
class-level fallbacks).  `InitState` records which attributes exist. -/

/-- The instance attributes visible part-way through `__init__`
(`none` = not yet assigned; reading it raises `AttributeError`). -/
structure InitState where
  model_version : Option String
  api_request_limit : Option Nat
  api_retry_limit : Option Nat
  api_retry_delay : Option ℤ
  api_backoff_factor : Option ℤ
  size : Option Nat
  verbose : Option Bool
deriving DecidableEq, Repr

/-- The retry loop of `get_embeddings_with_backoff` run against a partly
constructed instance: `self.api_retry_delay` and `self.api_backoff_factor`
are read inside the `except` branch, so reading them can itself raise
`AttributeError`. -/
def backoffAuxInit (M : Model) (st : InitState) (input_data : List String) :
    Nat → Nat → Except PyError (Option (List Vec)) × List (List String)
  | 0, _ => (.ok none, [])
  | fuel + 1, r =>
    match M.getEmbeddings input_data r with
    | some result => (.ok (some result), [input_data])
    | none =>
      match st.api_retry_delay, st.api_backoff_factor with
      | some _, some _ =>
        let rest := backoffAuxInit M st input_data fuel (r + 1)
        (rest.1, input_data :: rest.2)
      | _, _ => (.error .attributeError, [input_data])

/-- `get_embeddings_with_backoff` against a partly constructed instance:
`range(self.api_retry_limit)` reads `self.api_retry_limit` before the first
attempt, raising `AttributeError` when it is not yet assigned. -/
def getEmbeddingsWithBackoffInit (M : Model) (st : InitState)
    (input_data : List String) :
    Except PyError (Option (List Vec)) × List (List String) :=
  match st.api_retry_limit with
  | none => (.error .attributeError, [])
  | some lim => backoffAuxInit M st input_data lim 0

/-- `Embedding.string` against a partly constructed instance. -/
def stringInit (M : Model) (st : InitState) (input_string : String) :
    Except PyError Vec × List (List String) :=
  let r := getEmbeddingsWithBackoffInit M st [input_string]
  (match r.1 with
   | .error e => .error e
   | .ok none => .error .typeError
   | .ok (some l) =>
     match l[0]? with
     | none => .error .indexError
     | some v => .ok v,
   r.2)

namespace Embedding

/-- `Embedding.__init__` (`vertex.py` lines 14-22), statement by statement:
sets `model_version`, sets `api_request_limit = 5`, binds the model, then
evaluates `self.size = len(self.string("dummy data"))` — at which point
`api_retry_limit`, `api_retry_delay`, `api_backoff_factor` and `verbose` are
still unassigned — and only afterwards would assign the remaining attributes.
Returns the constructed configuration or the exception propagating out of
`__init__`, plus the provider batches sent. -/
def init (M : Model) (model_version : String) :
    Except PyError Config × List (List String) :=
  let st2 : InitState :=
    { model_version := some model_version
      api_request_limit := some 5
      api_retry_limit := none
      api_retry_delay := none
      api_backoff_factor := none
      size := none
      verbose := none }
  let probe := stringInit M st2 "dummy data"
  (match probe.1 with
   | .error e => .error e
   | .ok v =>
     .ok { model_version := model_version
           api_request_limit := 5
           api_retry_limit := 5
           api_retry_delay := 5
           api_backoff_factor := 2
           size := v.length
           verbose := false },
   probe.2)

end Embedding

/-! ### State-threaded variants (frame property)

The method bodies of `string`, `sequence` and `get_embeddings_with_backoff`
contain no assignment to `self`; to state this as a theorem rather than a
modelling convention, the variants below thread the instance state through
every step, reading each attribute from the state current at that step. -/

/-- State-threaded retry loop: attribute reads take the current state, and
the state flows through the recursion. -/
def backoffAuxSt (M : Model) (input_data : List String) :
    Nat → Nat → Config → BackoffResult × Config
  | 0, _, st => (⟨none, [], []⟩, st)
  | fuel + 1, r, st =>
    match M.getEmbeddings input_data r with
    | some result => (⟨some result, [input_data], []⟩, st)
    | none =>
      let wait := st.api_retry_delay * st.api_backoff_factor ^ r
      let rest := backoffAuxSt M input_data fuel (r + 1) st
      (⟨rest.1.res, input_data :: rest.1.calls, wait :: rest.1.sleeps⟩, rest.2)

namespace Embedding

/-- State-threaded `get_embeddings_with_backoff`. -/
def get_embeddings_with_backoff_st (M : Model) (st : Config)
    (input_data : List String) : BackoffResult × Config :=
  backoffAuxSt M input_data st.api_retry_limit 0 st

/-- State-threaded `Embedding.string`. -/
def string_st (M : Model) (st : Config) (input_string : String) :
    (Except PyError Vec × List (List String)) × Config :=
  let r := get_embeddings_with_backoff_st M st [input_string]
  ((match r.1.res with
    | none => .error .typeError
    | some l =>
      match l[0]? with
      | none => .error .indexError
      | some v => .ok v,
    r.1.calls),
   r.2)

/-- State-threaded chunk loop of `sequence`. -/
def seqLoopSt (M : Model) (input_seq : List String) :
    Nat → Nat → List Vec → Config →
      (Except PyError (List Vec) × List (List String)) × Config
  | 0, _, a, st => ((.ok a, []), st)
  | fuel + 1, i, a, st =>
    if i < input_seq.length then
      let subset_seq := (input_seq.drop i).take st.api_request_limit
      let b := get_embeddings_with_backoff_st M st subset_seq
      match b.1.res with
      | none => ((.ok a, b.1.calls), b.2)
      | some embed =>
        match assignRows b.2.size a i subset_seq.length embed with
        | .error e => ((.error e, b.1.calls), b.2)
        | .ok a2 =>
          let rest := seqLoopSt M input_seq fuel (i + b.2.api_request_limit) a2 b.2
          ((rest.1.1, b.1.calls ++ rest.1.2), rest.2)
    else ((.ok a, []), st)

/-- State-threaded `Embedding.sequence`. -/
def sequence_st (M : Model) (st : Config) (input_seq : List String) :
    (Except PyError (Option (List Vec)) × List (List String)) × Config :=
  let n := input_seq.length
  if n ≤ st.api_request_limit then
    let b := get_embeddings_with_backoff_st M st input_seq
    ((.ok b.1.res, b.1.calls), b.2)
  else if st.api_request_limit = 0 then
    ((.error .valueError, []), st)
  else
    let fuel := (n + st.api_request_limit - 1) / st.api_request_limit
    let a0 := List.replicate n (List.replicate st.size 0)
    let r := seqLoopSt M input_seq fuel 0 a0 st
    ((match r.1.1 with
      | .error e => .error e
      | .ok a => .ok (some a),
      r.1.2),
     r.2)

end Embedding

/-! ### Lemmas about the retry loop -/

theorem range_map_pow_shift (d b : ℤ) (r fuel : Nat) :
    (List.range (fuel + 1)).map (fun j => d * b ^ (r + j)) =
      d * b ^ r :: (List.range fuel).map (fun j => d * b ^ (r + 1 + j)) := by
  rw [List.range_succ_eq_map, List.map_cons, List.map_map]
  refine congrArg₂ _ (by norm_num) (List.map_congr_left ?_)
  intro j _
  have hj : r + Nat.succ j = r + 1 + j := by omega
  simp [Function.comp, hj]

theorem backoffAux_allfail (M : Model) (input : List String) (d b : ℤ) :
    ∀ fuel r, (∀ j < fuel, M.getEmbeddings input (r + j) = none) →
      backoffAux M input d b fuel r =
        ⟨none, List.replicate fuel input,
          (List.range fuel).map (fun j => d * b ^ (r + j))⟩ := by
  intro fuel
  induction fuel with
  | zero => intro r _; rfl
  | succ fuel ih =>
    intro r h
    have h0 : M.getEmbeddings input r = none := by
      have := h 0 (by omega); simpa using this
    have hrest : ∀ j < fuel, M.getEmbeddings input ((r + 1) + j) = none := by
      intro j hj
      have := h (j + 1) (by omega)
      simpa [Nat.add_assoc, Nat.add_comm 1 j] using this
    simp [backoffAux, h0, ih (r + 1) hrest, List.replicate_succ,
      range_map_pow_shift]

theorem backoffAux_success (M : Model) (input : List String) (d b : ℤ)
    (result : List Vec) :
    ∀ fuel k r, k < fuel → (∀ j < k, M.getEmbeddings input (r + j) = none) →
      M.getEmbeddings input (r + k) = some result →
      backoffAux M input d b fuel r =
        ⟨some result, List.replicate (k + 1) input,
          (List.range k).map (fun j => d * b ^ (r + j))⟩ := by
  intro fuel
  induction fuel with
  | zero => intro k r hk; omega
  | succ fuel ih =>
    intro k r hk hfail hsucc
    cases k with
    | zero =>
      have h0 : M.getEmbeddings input r = some result := by simpa using hsucc
      simp [backoffAux, h0, List.replicate]
    | succ k =>
      have h0 : M.getEmbeddings input r = none := by
        have := hfail 0 (by omega); simpa using this
      have hfail' : ∀ j < k, M.getEmbeddings input ((r + 1) + j) = none := by
        intro j hj
        have := hfail (j + 1) (by omega)
        simpa [Nat.add_assoc, Nat.add_comm 1 j] using this
      have hsucc' : M.getEmbeddings input ((r + 1) + k) = some result := by
        have hr : r + 1 + k = r + (k + 1) := by omega
        rw [hr]; exact hsucc
      simp [backoffAux, h0, ih k (r + 1) (by omega) hfail' hsucc',
        List.replicate_succ, range_map_pow_shift]

theorem backoffAux_calls_length_le (M : Model) (input : List String) (d b : ℤ) :
    ∀ fuel r, (backoffAux M input d b fuel r).calls.length ≤ fuel := by
  intro fuel
  induction fuel with
  | zero => intro r; simp [backoffAux]
  | succ fuel ih =>
    intro r
    cases h : M.getEmbeddings input r with
    | some result => simp [backoffAux, h]
    | none => simpa [backoffAux, h] using ih (r + 1)

theorem backoffAux_res_none_iff (M : Model) (input : List String) (d b : ℤ) :
    ∀ fuel r, (backoffAux M input d b fuel r).res = none ↔
      ∀ j < fuel, M.getEmbeddings input (r + j) = none := by
  intro fuel
  induction fuel with
  | zero => intro r; simp [backoffAux]
  | succ fuel ih =>
    intro r
    cases h : M.getEmbeddings input r with
    | some result =>
      simp only [backoffAux, h]
      constructor
      · intro hc; cases hc
      · intro hall
        have := hall 0 (by omega)
        simp [h] at this
    | none =>
      simp only [backoffAux, h]
      rw [ih (r + 1)]
      constructor
      · intro hall j hj
        cases j with
        | zero => simpa using h
        | succ j =>
          have := hall j (by omega)
          simpa [Nat.add_assoc, Nat.add_comm 1 j] using this
      · intro hall j hj
        have := hall (j + 1) (by omega)
        simpa [Nat.add_assoc, Nat.add_comm 1 j] using this

/-! ### Lemmas about the output-buffer writes -/

theorem writeRows_length (vs : List Vec) :
    ∀ (a : List Vec) (j : Nat), (writeRows a j vs).length = a.length := by
  induction vs with
  | nil => intro a j; rfl
  | cons v vs ih => intro a j; rw [writeRows, ih, List.length_set]

theorem writeRows_getElem? (vs : List Vec) :
    ∀ (a : List Vec) (j m : Nat), j + vs.length ≤ a.length →
      (writeRows a j vs)[m]? =
        if j ≤ m ∧ m < j + vs.length then vs[m - j]? else a[m]? := by
  induction vs with
  | nil =>
    intro a j m _
    rw [writeRows, if_neg (by simp)]
  | cons v vs ih =>
    intro a j m h
    simp only [List.length_cons] at h ⊢
    have hlen : (j + 1) + vs.length ≤ (a.set j v).length := by
      rw [List.length_set]; omega
    rw [writeRows, ih (a.set j v) (j + 1) m hlen]
    by_cases h1 : m = j
    · subst h1
      rw [if_neg (by omega), if_pos (by omega)]
      rw [List.getElem?_set_eq_of_lt v (by omega)]
      simp
    · by_cases h2 : j + 1 ≤ m ∧ m < j + 1 + vs.length
      · rw [if_pos h2, if_pos (by omega)]
        have hm : m - j = (m - (j + 1)) + 1 := by omega
        rw [hm, List.getElem?_cons_succ]
      · rw [if_neg h2, if_neg (by omega)]
        exact List.getElem?_set_ne (by omega)

theorem assignRows_ok (size : Nat) (a : List Vec) (ix1 subLen : Nat)
    (embed : List Vec) (h1 : subLen ≤ embed.length)
    (h2 : ix1 + subLen ≤ a.length)
    (h3 : ∀ v ∈ embed.take subLen, v.length = size) :
    assignRows size a ix1 subLen embed =
      .ok (writeRows a ix1 (embed.take subLen)) := by
  rw [assignRows, if_pos h1, if_pos h2, if_pos]
  exact List.all_eq_true.mpr (fun v hv => beq_iff_eq.mpr (h3 v hv))

/-! ### Lemmas about the chunk slicing -/

theorem chunkCalls_flatten (input_seq : List String) (rl : Nat) :
    ∀ fuel i, input_seq.length ≤ i + fuel * rl →
      (chunkCalls input_seq rl fuel i).flatten = input_seq.drop i := by
  intro fuel
  induction fuel with
  | zero =>
    intro i h
    rw [chunkCalls, List.flatten_nil, Eq.comm, List.drop_eq_nil_of_le]
    simpa using h
  | succ fuel ih =>
    intro i h
    by_cases hi : i < input_seq.length
    · rw [chunkCalls, if_pos hi, List.flatten_cons, ih (i + rl) ?hfuel]
      case hfuel =>
        rw [Nat.succ_mul] at h
        generalize fuel * rl = P at h ⊢
        omega
      rw [← List.drop_drop, List.take_append_drop]
    · rw [chunkCalls, if_neg hi, List.flatten_nil, Eq.comm,
        List.drop_eq_nil_of_le (by omega)]

theorem chunkCalls_getElem? (input_seq : List String) (rl : Nat) :
    ∀ fuel i c, (chunkCalls input_seq rl fuel i)[c]? =
      if c < fuel ∧ i + c * rl < input_seq.length
      then some ((input_seq.drop (i + c * rl)).take rl) else none := by
  intro fuel
  induction fuel with
  | zero =>
    intro i c
    rw [chunkCalls, if_neg (by simp)]
    rfl
  | succ fuel ih =>
    intro i c
    by_cases hi : i < input_seq.length
    · rw [chunkCalls, if_pos hi]
      cases c with
      | zero =>
        rw [if_pos (by simpa using hi)]
        simp
      | succ c =>
        rw [List.getElem?_cons_succ, ih (i + rl) c]
        have heq : i + rl + c * rl = i + (c + 1) * rl := by ring
        rw [heq]
        generalize i + (c + 1) * rl = w
        exact if_congr (by omega) rfl rfl
    · rw [chunkCalls, if_neg hi, if_neg ?hcond]
      case hcond =>
        rintro ⟨-, hlt⟩
        exact hi (by have := Nat.le_add_right i (c * rl); omega)
      rfl

/-! ### Ceiling-division facts for the chunk count `(n + rl - 1) / rl` -/

theorem le_ceil_mul {rl : Nat} (hrl : 0 < rl) (n : Nat) :
    n ≤ ((n + rl - 1) / rl) * rl := by
  have hdm := Nat.div_add_mod (n + rl - 1) rl
  have hm : (n + rl - 1) % rl < rl := Nat.mod_lt _ hrl
  rw [Nat.mul_comm]
  generalize rl * ((n + rl - 1) / rl) = P at hdm ⊢
  omega

theorem lt_ceil_of_mul_lt {rl : Nat} (hrl : 0 < rl) {k n : Nat}
    (h : k * rl < n) : k < (n + rl - 1) / rl := by
  rw [Nat.lt_iff_add_one_le, Nat.le_div_iff_mul_le hrl, Nat.succ_mul]
  generalize k * rl = P at h ⊢
  omega

/-! ### Top-level corollaries for `get_embeddings_with_backoff` -/

theorem backoff_first_success (M : Model) (cfg : Config) (input : List String)
    (result : List Vec) (hlim : 0 < cfg.api_retry_limit)
    (h : M.getEmbeddings input 0 = some result) :
    Embedding.get_embeddings_with_backoff M cfg input =
      ⟨some result, [input], []⟩ := by
  have := backoffAux_success M input cfg.api_retry_delay cfg.api_backoff_factor
    result cfg.api_retry_limit 0 0 hlim (by omega) (by simpa using h)
  simpa [Embedding.get_embeddings_with_backoff] using this

theorem backoff_det (f : String → Vec) (cfg : Config) (input : List String)
    (hlim : 0 < cfg.api_retry_limit) :
    Embedding.get_embeddings_with_backoff (detProvider f) cfg input =
      ⟨some (input.map f), [input], []⟩ :=
  backoff_first_success _ cfg input _ hlim rfl

theorem backoff_allfail (M : Model) (cfg : Config) (input : List String)
    (h : ∀ r < cfg.api_retry_limit, M.getEmbeddings input r = none) :
    Embedding.get_embeddings_with_backoff M cfg input =
      ⟨none, List.replicate cfg.api_retry_limit input,
        (List.range cfg.api_retry_limit).map
          (fun r => cfg.api_retry_delay * cfg.api_backoff_factor ^ r)⟩ := by
  have := backoffAux_allfail M input cfg.api_retry_delay cfg.api_backoff_factor
    cfg.api_retry_limit 0 (by simpa using h)
  simpa [Embedding.get_embeddings_with_backoff] using this

/-! ### The chunk loop under a deterministic, never-failing provider -/

theorem seqLoop_det (f : String → Vec) (cfg : Config) (texts : List String)
    (hD : ∀ s, (f s).length = cfg.size) (hlim : 0 < cfg.api_retry_limit) :
    ∀ fuel i a, a.length = texts.length →
      texts.length ≤ i + fuel * cfg.api_request_limit →
      ∃ af, Embedding.seqLoop (detProvider f) cfg texts fuel i a =
          (.ok af, chunkCalls texts cfg.api_request_limit fuel i)
        ∧ af.length = texts.length
        ∧ ∀ m, af[m]? = if m < i then a[m]? else (texts.map f)[m]? := by
  intro fuel
  induction fuel with
  | zero =>
    intro i a hal hfuel
    simp only [Nat.zero_mul, Nat.add_zero] at hfuel
    refine ⟨a, by rw [Embedding.seqLoop, chunkCalls], hal, ?_⟩
    intro m
    split
    · rfl
    · rename_i hm
      rw [List.getElem?_eq_none (by omega), List.getElem?_eq_none]
      rw [List.length_map]; omega
  | succ fuel ih =>
    intro i a hal hfuel
    by_cases hi : i < texts.length
    · have hb := backoff_det f cfg ((texts.drop i).take cfg.api_request_limit) hlim
      have hsublen : ((texts.drop i).take cfg.api_request_limit).length =
          min cfg.api_request_limit (texts.length - i) := by
        simp [List.length_take, List.length_drop]
      have h2 : i + ((texts.drop i).take cfg.api_request_limit).length ≤
          a.length := by rw [hsublen, hal]; omega
      have ha := assignRows_ok cfg.size a i
        ((texts.drop i).take cfg.api_request_limit).length
        (((texts.drop i).take cfg.api_request_limit).map f)
        (by rw [List.length_map]) h2 ?hval
      case hval =>
        intro v hv
        have := List.mem_of_mem_take hv
        obtain ⟨s, -, rfl⟩ := List.mem_map.mp this
        exact hD s
      set subset := (texts.drop i).take cfg.api_request_limit with hsubset
      set a2 := writeRows a i ((subset.map f).take subset.length) with ha2
      have ha2len : a2.length = texts.length := by
        rw [ha2, writeRows_length, hal]
      have htakelen : ((subset.map f).take subset.length).length =
          subset.length := by simp
      have ha2get : ∀ m, a2[m]? =
          if i ≤ m ∧ m < i + subset.length then (texts.map f)[m]?
          else a[m]? := by
        intro m
        rw [ha2, writeRows_getElem? _ _ _ _ (by rw [htakelen]; exact h2)]
        rw [htakelen]
        split
        · rename_i hm
          rw [List.getElem?_take, if_pos (by omega), List.getElem?_map,
            hsubset, List.getElem?_take, if_pos (by rw [hsublen] at hm; omega),
            List.getElem?_drop, List.getElem?_map]
          have him : i + (m - i) = m := by omega
          rw [him]
        · rfl
      have hfl : texts.length ≤
          (i + cfg.api_request_limit) + fuel * cfg.api_request_limit := by
        rw [Nat.succ_mul] at hfuel
        generalize fuel * cfg.api_request_limit = P at hfuel ⊢
        omega
      obtain ⟨af, heq, haflen, hafget⟩ :=
        ih (i + cfg.api_request_limit) a2 ha2len hfl
      refine ⟨af, ?_, haflen, ?_⟩
      · rw [Embedding.seqLoop, chunkCalls]
        rw [if_pos hi, if_pos hi]
        simp only [← hsubset, hb, ha, ← ha2, heq]
        rfl
      · intro m
        rw [hafget m, ha2get m]
        by_cases hmi : m < i
        · have c1 : m < i + cfg.api_request_limit := by omega
          have c2 : ¬(i ≤ m ∧ m < i + subset.length) := by omega
          rw [if_pos c1, if_neg c2, if_pos hmi]
        · rw [if_neg hmi]
          by_cases hm2 : m < i + subset.length
          · have c1 : m < i + cfg.api_request_limit := by
              rw [hsublen] at hm2; omega
            have c2 : i ≤ m ∧ m < i + subset.length := ⟨by omega, hm2⟩
            rw [if_pos c1, if_pos c2]
          · by_cases hm3 : m < i + cfg.api_request_limit
            · have c2 : ¬(i ≤ m ∧ m < i + subset.length) := by omega
              rw [if_pos hm3, if_neg c2]
              rw [hsublen] at hm2
              rw [List.getElem?_eq_none (by omega), List.getElem?_eq_none]
              rw [List.length_map]
              omega
            · rw [if_neg hm3]
    · refine ⟨a, ?_, hal, ?_⟩
      · rw [Embedding.seqLoop, chunkCalls, if_neg hi, if_neg hi]
      · intro m
        split
        · rfl
        · rw [List.getElem?_eq_none (by omega), List.getElem?_eq_none]
          rw [List.length_map]; omega

/-! ### The chunk loop under a contract-honouring provider -/

theorem backoffAux_res_some (M : Model) (input : List String) (d b : ℤ) :
    ∀ fuel r result, (backoffAux M input d b fuel r).res = some result →
      ∃ j, M.getEmbeddings input (r + j) = some result := by
  intro fuel
  induction fuel with
  | zero => intro r result h; cases h
  | succ fuel ih =>
    intro r result h
    cases hg : M.getEmbeddings input r with
    | some result' =>
      refine ⟨0, ?_⟩
      simp only [backoffAux, hg] at h
      cases h
      simpa using hg
    | none =>
      simp only [backoffAux, hg] at h
      obtain ⟨j, hj⟩ := ih (r + 1) result h
      exact ⟨j + 1, by rw [show r + (j + 1) = r + 1 + j by omega]; exact hj⟩

theorem writeRows_forall {P : Vec → Prop} (vs : List Vec) :
    ∀ (a : List Vec) (j : Nat), (∀ v ∈ a, P v) → (∀ v ∈ vs, P v) →
      ∀ v ∈ writeRows a j vs, P v := by
  induction vs with
  | nil => intro a j ha _ v hv; exact ha v hv
  | cons w vs ih =>
    intro a j ha hvs v hv
    refine ih (a.set j w) (j + 1) ?_ (fun x hx => hvs x (List.mem_cons_of_mem w hx)) v hv
    intro x hx
    rcases List.mem_or_eq_of_mem_set hx with h | h
    · exact ha x h
    · subst h; exact hvs x (List.mem_cons_self x vs)

theorem seqLoop_wb (M : Model) (cfg : Config) (texts : List String)
    (hM : wellBehaved M cfg.size) :
    ∀ fuel i a, a.length = texts.length → (∀ v ∈ a, v.length = cfg.size) →
      ∃ af calls, Embedding.seqLoop M cfg texts fuel i a = (.ok af, calls)
        ∧ af.length = texts.length ∧ ∀ v ∈ af, v.length = cfg.size := by
  intro fuel
  induction fuel with
  | zero =>
    intro i a hal hav
    exact ⟨a, [], by rw [Embedding.seqLoop], hal, hav⟩
  | succ fuel ih =>
    intro i a hal hav
    by_cases hi : i < texts.length
    · cases hres : (Embedding.get_embeddings_with_backoff M cfg
        ((texts.drop i).take cfg.api_request_limit)).res with
      | none =>
        refine ⟨a, (Embedding.get_embeddings_with_backoff M cfg
          ((texts.drop i).take cfg.api_request_limit)).calls, ?_, hal, hav⟩
        rw [Embedding.seqLoop, if_pos hi]
        simp only [hres]
      | some embed =>
        obtain ⟨j, hj⟩ := backoffAux_res_some M _ _ _ cfg.api_retry_limit 0
          embed hres
        obtain ⟨hlenE, hvalE⟩ := hM _ _ _ hj
        have hsublen : ((texts.drop i).take cfg.api_request_limit).length =
            min cfg.api_request_limit (texts.length - i) := by
          simp [List.length_take, List.length_drop]
        have ha := assignRows_ok cfg.size a i
          ((texts.drop i).take cfg.api_request_limit).length embed
          (by omega) (by omega)
          (fun v hv => hvalE v (List.mem_of_mem_take hv))
        set subLen := ((texts.drop i).take cfg.api_request_limit).length
        set a2 := writeRows a i (embed.take subLen) with ha2
        obtain ⟨af, calls, heq, haflen, hafv⟩ :=
          ih (i + cfg.api_request_limit) a2
            (by rw [ha2, writeRows_length, hal])
            (writeRows_forall _ a i hav
              (fun v hv => hvalE v (List.mem_of_mem_take hv)))
        refine ⟨af, (Embedding.get_embeddings_with_backoff M cfg
          ((texts.drop i).take cfg.api_request_limit)).calls ++ calls, ?_,
          haflen, hafv⟩
        rw [Embedding.seqLoop, if_pos hi]
        simp only [hres, ha, ← ha2, heq]
    · exact ⟨a, [], by rw [Embedding.seqLoop, if_neg hi], hal, hav⟩

/-! ### The chunk loop when chunk `k` fails irrecoverably -/

theorem seqLoop_abort (M : Model) (cfg : Config) (texts : List String)
    (f : String → Vec) (hD : ∀ s, (f s).length = cfg.size)
    (hlim : 0 < cfg.api_retry_limit) :
    ∀ (k fuel i : Nat) (a : List Vec), a.length = texts.length → k < fuel →
      i + k * cfg.api_request_limit < texts.length →
      (∀ m < k, M.getEmbeddings
          ((texts.drop (i + m * cfg.api_request_limit)).take
            cfg.api_request_limit) 0 =
        some (((texts.drop (i + m * cfg.api_request_limit)).take
          cfg.api_request_limit).map f)) →
      (∀ r, M.getEmbeddings
          ((texts.drop (i + k * cfg.api_request_limit)).take
            cfg.api_request_limit) r = none) →
      ∃ af, Embedding.seqLoop M cfg texts fuel i a =
          (.ok af,
            (List.range k).map (fun m =>
              (texts.drop (i + m * cfg.api_request_limit)).take
                cfg.api_request_limit)
            ++ List.replicate cfg.api_retry_limit
                ((texts.drop (i + k * cfg.api_request_limit)).take
                  cfg.api_request_limit))
        ∧ af.length = texts.length
        ∧ ∀ m, af[m]? =
            if i ≤ m ∧ m < i + k * cfg.api_request_limit
            then (texts.map f)[m]? else a[m]? := by
  intro k
  induction k with
  | zero =>
    intro fuel i a hal hk hin hs hf
    cases fuel with
    | zero => omega
    | succ fuel =>
      have hi : i < texts.length := by
        have := hin; simp only [Nat.zero_mul, Nat.add_zero] at this; exact this
      have hb := backoff_allfail M cfg
        ((texts.drop (i + 0 * cfg.api_request_limit)).take
          cfg.api_request_limit) (fun r _ => hf r)
      refine ⟨a, ?_, hal, ?_⟩
      · rw [Embedding.seqLoop, if_pos hi]
        simp only [Nat.zero_mul, Nat.add_zero] at hb ⊢
        simp only [hb, List.range_zero, List.map_nil, List.nil_append]
      · intro m
        rw [if_neg (by omega)]
  | succ k ih =>
    intro fuel i a hal hk hin hs hf
    cases fuel with
    | zero => omega
    | succ fuel =>
      have hk1 : (k + 1) * cfg.api_request_limit =
          k * cfg.api_request_limit + cfg.api_request_limit :=
        Nat.succ_mul ..
      have hi : i < texts.length := by omega
      have hs0 := hs 0 (by omega)
      simp only [Nat.zero_mul, Nat.add_zero] at hs0
      have hb := backoff_first_success M cfg
        ((texts.drop i).take cfg.api_request_limit) _ hlim hs0
      have hsublen : ((texts.drop i).take cfg.api_request_limit).length =
          min cfg.api_request_limit (texts.length - i) := by
        simp [List.length_take, List.length_drop]
      have hsubrl : ((texts.drop i).take cfg.api_request_limit).length =
          cfg.api_request_limit := by omega
      have ha := assignRows_ok cfg.size a i
        ((texts.drop i).take cfg.api_request_limit).length
        (((texts.drop i).take cfg.api_request_limit).map f)
        (by rw [List.length_map]) (by omega) ?hval
      case hval =>
        intro v hv
        obtain ⟨s, -, rfl⟩ := List.mem_map.mp (List.mem_of_mem_take hv)
        exact hD s
      set subset := (texts.drop i).take cfg.api_request_limit with hsubset
      set a2 := writeRows a i ((subset.map f).take subset.length) with ha2
      have htakelen : ((subset.map f).take subset.length).length =
          subset.length := by simp
      have ha2len : a2.length = texts.length := by
        rw [ha2, writeRows_length, hal]
      have ha2get : ∀ m, a2[m]? =
          if i ≤ m ∧ m < i + subset.length then (texts.map f)[m]?
          else a[m]? := by
        intro m
        rw [ha2, writeRows_getElem? _ _ _ _ (by rw [htakelen]; omega)]
        rw [htakelen]
        split
        · rename_i hm
          rw [List.getElem?_take, if_pos (by omega), List.getElem?_map,
            hsubset, List.getElem?_take, if_pos (by omega),
            List.getElem?_drop, List.getElem?_map]
          have him : i + (m - i) = m := by omega
          rw [him]
        · rfl
      have hs' : ∀ m < k, M.getEmbeddings
          ((texts.drop ((i + cfg.api_request_limit) +
            m * cfg.api_request_limit)).take cfg.api_request_limit) 0 =
          some (((texts.drop ((i + cfg.api_request_limit) +
            m * cfg.api_request_limit)).take cfg.api_request_limit).map f) := by
        intro m hm
        have hmm : (i + cfg.api_request_limit) + m * cfg.api_request_limit =
            i + (m + 1) * cfg.api_request_limit := by
          rw [Nat.succ_mul]; omega
        rw [hmm]
        exact hs (m + 1) (by omega)
      have hf' : ∀ r, M.getEmbeddings
          ((texts.drop ((i + cfg.api_request_limit) +
            k * cfg.api_request_limit)).take cfg.api_request_limit) r =
          none := by
        intro r
        have hmm : (i + cfg.api_request_limit) + k * cfg.api_request_limit =
            i + (k + 1) * cfg.api_request_limit := by
          rw [Nat.succ_mul]; omega
        rw [hmm]
        exact hf r
      obtain ⟨af, heq, haflen, hafget⟩ :=
        ih fuel (i + cfg.api_request_limit) a2 ha2len (by omega)
          (by omega) hs' hf'
      have hcalls :
          (List.range (k + 1)).map (fun m =>
            (texts.drop (i + m * cfg.api_request_limit)).take
              cfg.api_request_limit)
          ++ List.replicate cfg.api_retry_limit
              ((texts.drop (i + (k + 1) * cfg.api_request_limit)).take
                cfg.api_request_limit) =
          subset ::
            ((List.range k).map (fun m =>
              (texts.drop ((i + cfg.api_request_limit) +
                m * cfg.api_request_limit)).take cfg.api_request_limit)
            ++ List.replicate cfg.api_retry_limit
                ((texts.drop ((i + cfg.api_request_limit) +
                  k * cfg.api_request_limit)).take cfg.api_request_limit)) := by
        rw [List.range_succ_eq_map, List.map_cons, List.map_map]
        simp only [Nat.zero_mul, Nat.add_zero, List.cons_append]
        refine congrArg₂ _ hsubset.symm (congrArg₂ _ ?_ ?_)
        · apply List.map_congr_left
          intro m _
          have hmm : i + (Nat.succ m) * cfg.api_request_limit =
              (i + cfg.api_request_limit) + m * cfg.api_request_limit := by
            rw [Nat.succ_mul]; omega
          simp only [Function.comp, hmm]
        · have hmm : i + (k + 1) * cfg.api_request_limit =
              (i + cfg.api_request_limit) + k * cfg.api_request_limit := by
            rw [Nat.succ_mul]; omega
          rw [hmm]
      refine ⟨af, ?_, haflen, ?_⟩
      · rw [Embedding.seqLoop, if_pos hi, hcalls]
        simp only [← hsubset, hb, ha, ← ha2, heq]
        simp only [List.cons_append, List.nil_append]
      · intro m
        rw [hafget m, ha2get m]
        by_cases c1 : (i + cfg.api_request_limit) ≤ m ∧
            m < (i + cfg.api_request_limit) + k * cfg.api_request_limit
        · rw [if_pos c1, if_pos (by omega)]
        · rw [if_neg c1]
          by_cases c2 : i ≤ m ∧ m < i + subset.length
          · rw [if_pos c2, if_pos (by omega)]
          · rw [if_neg c2, if_neg (by omega)]

/-! ### Lemmas about the duplicate retry loop `_sequence` -/

theorem sequenceDupAux_calls (M : Model) (input : List String) :
    ∀ fuel r embed, (Embedding.sequenceDupAux M input fuel r embed).2 = fuel := by
  intro fuel
  induction fuel with
  | zero => intro r embed; rfl
  | succ fuel ih =>
    intro r embed
    rw [Embedding.sequenceDupAux]
    cases M.getEmbeddings input r <;> simp [ih]

theorem sequenceDupAux_allfail (M : Model) (input : List String) :
    ∀ fuel r embed, (∀ j < fuel, M.getEmbeddings input (r + j) = none) →
      (Embedding.sequenceDupAux M input fuel r embed).1 = embed := by
  intro fuel
  induction fuel with
  | zero => intro r embed _; rfl
  | succ fuel ih =>
    intro r embed h
    have h0 : M.getEmbeddings input r = none := by
      have := h 0 (by omega); simpa using this
    rw [Embedding.sequenceDupAux]
    simp only [h0]
    exact ih (r + 1) embed (fun j hj => by
      have := h (j + 1) (by omega)
      simpa [Nat.add_assoc, Nat.add_comm 1 j] using this)

theorem sequenceDupAux_last_success (M : Model) (input : List String)
    (result : List Vec) :
    ∀ fuel j0 r embed, j0 < fuel →
      M.getEmbeddings input (r + j0) = some result →
      (∀ j, j0 < j → j < fuel → M.getEmbeddings input (r + j) = none) →
      (Embedding.sequenceDupAux M input fuel r embed).1 = some result := by
  intro fuel
  induction fuel with
  | zero => intro j0 r embed h; omega
  | succ fuel ih =>
    intro j0 r embed hj0 hsucc hafter
    cases j0 with
    | zero =>
      have h0 : M.getEmbeddings input r = some result := by simpa using hsucc
      rw [Embedding.sequenceDupAux]
      simp only [h0]
      exact sequenceDupAux_allfail M input fuel (r + 1) (some result)
        (fun j hj => by
          have := hafter (j + 1) (by omega) (by omega)
          simpa [Nat.add_assoc, Nat.add_comm 1 j] using this)
    | succ j0 =>
      rw [Embedding.sequenceDupAux]
      have hsucc' : M.getEmbeddings input ((r + 1) + j0) = some result := by
        rw [show r + 1 + j0 = r + (j0 + 1) by omega]; exact hsucc
      have hafter' : ∀ j, j0 < j → j < fuel →
          M.getEmbeddings input ((r + 1) + j) = none := by
        intro j h1 h2
        have := hafter (j + 1) (by omega) (by omega)
        simpa [Nat.add_assoc, Nat.add_comm 1 j] using this
      cases M.getEmbeddings input r <;>
        simp only [] <;>
        exact ih j0 (r + 1) _ (by omega) hsucc' hafter'

/-! ### The state-threaded variants never change the instance state -/

theorem backoffAuxSt_state (M : Model) (input : List String) :
    ∀ fuel r st, (backoffAuxSt M input fuel r st).2 = st := by
  intro fuel
  induction fuel with
  | zero => intro r st; rfl
  | succ fuel ih =>
    intro r st
    rw [backoffAuxSt]
    cases M.getEmbeddings input r <;> simp [ih]

theorem get_embeddings_with_backoff_st_state (M : Model) (st : Config)
    (input : List String) :
    (Embedding.get_embeddings_with_backoff_st M st input).2 = st :=
  backoffAuxSt_state M input st.api_retry_limit 0 st

theorem string_st_state (M : Model) (st : Config) (s : String) :
    (Embedding.string_st M st s).2 = st := by
  rw [Embedding.string_st]
  exact get_embeddings_with_backoff_st_state M st [s]

theorem seqLoopSt_state (M : Model) (input_seq : List String) :
    ∀ fuel i a st, (Embedding.seqLoopSt M input_seq fuel i a st).2 = st := by
  intro fuel
  induction fuel with
  | zero => intro i a st; rfl
  | succ fuel ih =>
    intro i a st
    rw [Embedding.seqLoopSt]
    by_cases hi : i < input_seq.length
    · rw [if_pos hi]
      have hbst := get_embeddings_with_backoff_st_state M st
        ((input_seq.drop i).take st.api_request_limit)
      cases hres : (Embedding.get_embeddings_with_backoff_st M st
          ((input_seq.drop i).take st.api_request_limit)).1.res with
      | none => simpa [hres] using hbst
      | some embed =>
        simp only [hres]
        cases hassign : assignRows
            (Embedding.get_embeddings_with_backoff_st M st
              ((input_seq.drop i).take st.api_request_limit)).2.size a i
            ((input_seq.drop i).take st.api_request_limit).length embed with
        | error e => simpa using hbst
        | ok a2 => simpa [ih] using hbst
    · rw [if_neg hi]

theorem sequence_st_state (M : Model) (st : Config) (input_seq : List String) :
    (Embedding.sequence_st M st input_seq).2 = st := by
  rw [Embedding.sequence_st]
  by_cases h1 : input_seq.length ≤ st.api_request_limit
  · simp only [if_pos h1]
    exact get_embeddings_with_backoff_st_state M st input_seq
  · by_cases h2 : st.api_request_limit = 0
    · simp only [if_neg h1, if_pos h2]
    · simp only [if_neg h1, if_neg h2]
      exact seqLoopSt_state M input_seq _ 0 _ st

theorem backoffAux_calls_mem (M : Model) (input : List String) (d bf : ℤ) :
    ∀ fuel r b, b ∈ (backoffAux M input d bf fuel r).calls → b = input := by
  intro fuel
  induction fuel with
  | zero => intro r b h; cases h
  | succ fuel ih =>
    intro r b h
    cases hg : M.getEmbeddings input r with
    | some result =>
      simp only [backoffAux, hg, List.mem_singleton] at h
      exact h
    | none =>
      simp only [backoffAux, hg, List.mem_cons] at h
      rcases h with h | h
      · exact h
      · exact ih (r + 1) b h

/-! ## The claims -/

/-- C7: the spec says construction binds to the provider and issues exactly one
single-item probe call with a placeholder string to determine D.  The code
cannot do this: `__init__` evaluates `self.string("dummy data")` to set
`self.size` *before* assigning `self.api_retry_limit`, and
`get_embeddings_with_backoff` immediately evaluates
`range(self.api_retry_limit)`, so every construction raises `AttributeError`
before any provider call is made, whatever the provider would answer. -/
theorem claim_C7 (M : Model) (model_version : String) :
    Embedding.init M model_version = (.error .attributeError, []) := rfl

/-- C10: the state-threaded translations of `string`, `sequence` and
`get_embeddings_with_backoff` return the instance state unchanged: the
configuration fields and the probed dimensionality are never mutated by any
top-level operation. -/
theorem claim_C10 (M : Model) (st : Config) (s : String)
    (texts input : List String) :
    (Embedding.string_st M st s).2 = st
    ∧ (Embedding.sequence_st M st texts).2 = st
    ∧ (Embedding.get_embeddings_with_backoff_st M st input).2 = st
    ∧ (Embedding.sequence_st M st texts).2.api_request_limit =
        st.api_request_limit
    ∧ (Embedding.sequence_st M st texts).2.api_retry_limit =
        st.api_retry_limit
    ∧ (Embedding.sequence_st M st texts).2.api_retry_delay =
        st.api_retry_delay
    ∧ (Embedding.sequence_st M st texts).2.api_backoff_factor =
        st.api_backoff_factor
    ∧ (Embedding.sequence_st M st texts).2.size = st.size := by
  have h2 := sequence_st_state M st texts
  exact ⟨string_st_state M st s, h2,
    get_embeddings_with_backoff_st_state M st input,
    by rw [h2], by rw [h2], by rw [h2], by rw [h2], by rw [h2]⟩

/-- C2: for every batch the retry primitive calls the provider at most
`retry_limit` times; if attempts `0..r-1` fail and attempt `r < retry_limit`
succeeds it returns that result having made exactly `r + 1` calls (no further
attempts); and if all attempts fail it returns the `None` sentinel — distinct
from the empty-list result — after exactly `retry_limit` calls. -/
theorem claim_C2 :
    (∀ (M : Model) (cfg : Config) (input : List String),
      (Embedding.get_embeddings_with_backoff M cfg input).calls.length ≤
        cfg.api_retry_limit)
    ∧ (∀ (M : Model) (cfg : Config) (input : List String) (r : Nat)
        (result : List Vec), r < cfg.api_retry_limit →
        (∀ j < r, M.getEmbeddings input j = none) →
        M.getEmbeddings input r = some result →
        (Embedding.get_embeddings_with_backoff M cfg input).res = some result
        ∧ (Embedding.get_embeddings_with_backoff M cfg input).calls.length =
            r + 1)
    ∧ (∀ (M : Model) (cfg : Config) (input : List String),
        (∀ r < cfg.api_retry_limit, M.getEmbeddings input r = none) →
        (Embedding.get_embeddings_with_backoff M cfg input).res = none
        ∧ (Embedding.get_embeddings_with_backoff M cfg input).res ≠ some []
        ∧ (Embedding.get_embeddings_with_backoff M cfg input).calls.length =
            cfg.api_retry_limit) := by
  refine ⟨?_, ?_, ?_⟩
  · intro M cfg input
    exact backoffAux_calls_length_le M input _ _ cfg.api_retry_limit 0
  · intro M cfg input r result hr hfail hsucc
    have h := backoffAux_success M input cfg.api_retry_delay
      cfg.api_backoff_factor result cfg.api_retry_limit r 0 hr
      (fun j hj => by simpa using hfail j hj) (by simpa using hsucc)
    rw [Embedding.get_embeddings_with_backoff, h]
    exact ⟨rfl, by simp⟩
  · intro M cfg input h
    have hb := backoff_allfail M cfg input h
    rw [hb]
    exact ⟨rfl, by simp, by simp⟩

theorem claim_C2_witness :
    (Embedding.get_embeddings_with_backoff
        ⟨fun _ r => if r = 0 then none else some [[5]]⟩
        ⟨"m", 5, 3, 1, 2, 1, false⟩ ["x"]).res = some [[5]]
    ∧ (Embedding.get_embeddings_with_backoff
        ⟨fun _ r => if r = 0 then none else some [[5]]⟩
        ⟨"m", 5, 3, 1, 2, 1, false⟩ ["x"]).calls.length = 2
    ∧ (Embedding.get_embeddings_with_backoff ⟨fun _ _ => none⟩
        ⟨"m", 5, 3, 1, 2, 1, false⟩ ["x"]).res = none
    ∧ (Embedding.get_embeddings_with_backoff ⟨fun _ _ => none⟩
        ⟨"m", 5, 3, 1, 2, 1, false⟩ ["x"]).calls.length = 3 := by
  have h1 := claim_C2.2.1 ⟨fun _ r => if r = 0 then none else some [[5]]⟩
    ⟨"m", 5, 3, 1, 2, 1, false⟩ ["x"] 1 [[5]] (by decide)
    (by intro j hj; interval_cases j; rfl) rfl
  have h2 := claim_C2.2.2 ⟨fun _ _ => none⟩
    ⟨"m", 5, 3, 1, 2, 1, false⟩ ["x"] (fun r _ => rfl)
  exact ⟨h1.1, h1.2, h2.1, h2.2.2⟩

/-- C3, counterexample to the claim as stated: the claim says no sleep follows
the final failed attempt, so with `retry_limit = 2, retry_delay = 1,
backoff_factor = 2` an all-failing batch would sleep only `[1]`.  The code
sleeps inside the `except` branch of *every* iteration, including the last,
so the recorded sleeps are `[1, 2]`. -/
theorem claim_C3_counterexample :
    (Embedding.get_embeddings_with_backoff ⟨fun _ _ => none⟩
      ⟨"m", 2, 2, 1, 2, 3, false⟩ ["a"]).sleeps = [1, 2]
    ∧ (Embedding.get_embeddings_with_backoff ⟨fun _ _ => none⟩
        ⟨"m", 2, 2, 1, 2, 3, false⟩ ["a"]).sleeps ≠ [1]
    ∧ (Embedding.get_embeddings_with_backoff ⟨fun _ _ => none⟩
        ⟨"m", 2, 2, 1, 2, 3, false⟩ ["a"]).calls.length = 2 := by
  refine ⟨by decide, by decide, by decide⟩

/-- C3 amended: after a provider failure on attempt `r` the thread is
suspended for exactly `retry_delay * backoff_factor^r` seconds, after *every*
failed attempt including the final one; on the all-failures path the delays
slept are exactly `delay(0), ..., delay(retry_limit-1)`, summing to
`Σ_{r=0}^{retry_limit-1} retry_delay * backoff_factor^r`; when the first
success is at attempt `r`, exactly `delay(0), ..., delay(r-1)` are slept
(sleeps happen only on failures).  With `retry_limit = 2, retry_delay = 1,
backoff_factor = 2` an all-failing batch incurs exactly 2 provider calls with
sleeps of 1 second and then 2 seconds, the latter after the final attempt. -/
theorem claim_C3 :
    (∀ (M : Model) (cfg : Config) (input : List String),
      (∀ r < cfg.api_retry_limit, M.getEmbeddings input r = none) →
      (Embedding.get_embeddings_with_backoff M cfg input).sleeps =
        (List.range cfg.api_retry_limit).map
          (fun r => cfg.api_retry_delay * cfg.api_backoff_factor ^ r)
      ∧ (Embedding.get_embeddings_with_backoff M cfg input).sleeps.sum =
          ((List.range cfg.api_retry_limit).map
            (fun r => cfg.api_retry_delay * cfg.api_backoff_factor ^ r)).sum
      ∧ (Embedding.get_embeddings_with_backoff M cfg input).calls.length =
          cfg.api_retry_limit)
    ∧ (∀ (M : Model) (cfg : Config) (input : List String) (r : Nat)
        (result : List Vec), r < cfg.api_retry_limit →
        (∀ j < r, M.getEmbeddings input j = none) →
        M.getEmbeddings input r = some result →
        (Embedding.get_embeddings_with_backoff M cfg input).sleeps =
          (List.range r).map
            (fun j => cfg.api_retry_delay * cfg.api_backoff_factor ^ j)) := by
  constructor
  · intro M cfg input h
    have hb := backoff_allfail M cfg input h
    rw [hb]
    exact ⟨rfl, rfl, by simp⟩
  · intro M cfg input r result hr hfail hsucc
    have h := backoffAux_success M input cfg.api_retry_delay
      cfg.api_backoff_factor result cfg.api_retry_limit r 0 hr
      (fun j hj => by simpa using hfail j hj) (by simpa using hsucc)
    rw [Embedding.get_embeddings_with_backoff, h]
    simp

theorem claim_C3_witness :
    (Embedding.get_embeddings_with_backoff ⟨fun _ _ => none⟩
      ⟨"m", 2, 2, 1, 2, 3, false⟩ ["b"]).sleeps =
      (List.range 2).map (fun r => (1 : ℤ) * 2 ^ r)
    ∧ (Embedding.get_embeddings_with_backoff ⟨fun _ _ => none⟩
        ⟨"m", 2, 2, 1, 2, 3, false⟩ ["b"]).calls.length = 2 := by
  have h := claim_C3.1 ⟨fun _ _ => none⟩ ⟨"m", 2, 2, 1, 2, 3, false⟩ ["b"]
    (fun r _ => rfl)
  exact ⟨h.1, h.2.2⟩

/-- Under a deterministic never-failing provider `embed_one` returns exactly
the per-string embedding (helper shared by the batching claims). -/
theorem string_det (f : String → Vec) (cfg : Config) (s : String)
    (hlim : 0 < cfg.api_retry_limit) :
    (Embedding.string (detProvider f) cfg s).1 = .ok (f s) := by
  rw [Embedding.string]
  simp only [backoff_det f cfg [s] hlim, List.map_cons, List.map_nil]
  rfl

/-- Under a deterministic never-failing provider `embed_many` returns exactly
the row-wise image of the input (helper shared by the batching claims). -/
theorem sequence_det (f : String → Vec) (cfg : Config) (texts : List String)
    (hD : ∀ s, (f s).length = cfg.size)
    (hreq : 0 < cfg.api_request_limit) (hlim : 0 < cfg.api_retry_limit) :
    Embedding.sequence (detProvider f) cfg texts =
      (.ok (some (texts.map f)),
        if texts.length ≤ cfg.api_request_limit then [texts]
        else chunkCalls texts cfg.api_request_limit
          ((texts.length + cfg.api_request_limit - 1) /
            cfg.api_request_limit) 0) := by
  by_cases hn : texts.length ≤ cfg.api_request_limit
  · rw [Embedding.sequence, if_pos hn, if_pos hn]
    simp only [backoff_det f cfg texts hlim]
  · obtain ⟨af, heq, haflen, hafget⟩ := seqLoop_det f cfg texts hD hlim
      ((texts.length + cfg.api_request_limit - 1) / cfg.api_request_limit)
      0 (List.replicate texts.length (List.replicate cfg.size 0))
      (by rw [List.length_replicate])
      (by simpa using le_ceil_mul hreq texts.length)
    have haf : af = texts.map f := by
      apply List.ext_getElem?
      intro m
      have := hafget m
      simpa using this
    have hz : cfg.api_request_limit ≠ 0 := by omega
    rw [Embedding.sequence]
    simp only [if_neg hn, if_neg hz, heq, haf]

/-- C1: for every sequence of N ≥ 0 input strings, with a deterministic
provider (of per-string embedding `f`, dimensionality `cfg.size`) that
succeeds on every call, `embed_many` (`Embedding.sequence`) returns the
matrix `texts.map f` of shape (N, D) — N rows, each of width D fixed at
construction — and row i is exactly the vector `embed_one`
(`Embedding.string`) returns for `texts[i]`. -/
theorem claim_C1 (f : String → Vec) (cfg : Config) (texts : List String)
    (hD : ∀ s, (f s).length = cfg.size)
    (hreq : 0 < cfg.api_request_limit) (hlim : 0 < cfg.api_retry_limit) :
    (Embedding.sequence (detProvider f) cfg texts).1 =
      .ok (some (texts.map f))
    ∧ (texts.map f).length = texts.length
    ∧ (∀ row ∈ texts.map f, row.length = cfg.size)
    ∧ ∀ i : Nat, ∀ s, texts[i]? = some s →
        (texts.map f)[i]? = some (f s)
        ∧ (Embedding.string (detProvider f) cfg s).1 = .ok (f s) := by
  refine ⟨?_, List.length_map .., ?_, ?_⟩
  · rw [sequence_det f cfg texts hD hreq hlim]
  · intro row hrow
    obtain ⟨s, -, rfl⟩ := List.mem_map.mp hrow
    exact hD s
  · intro i s hs
    refine ⟨?_, string_det f cfg s hlim⟩
    rw [List.getElem?_map, hs]
    rfl

theorem claim_C1_witness :
    (Embedding.sequence (detProvider (fun _ => ([0, 0] : Vec)))
      ⟨"m", 2, 1, 1, 2, 2, false⟩ ["a", "b", "c"]).1 =
      .ok (some [[0, 0], [0, 0], [0, 0]])
    ∧ (Embedding.string (detProvider (fun _ => ([0, 0] : Vec)))
        ⟨"m", 2, 1, 1, 2, 2, false⟩ "b").1 = .ok [0, 0] :=
  ⟨(claim_C1 (fun _ => [0, 0]) ⟨"m", 2, 1, 1, 2, 2, false⟩ ["a", "b", "c"]
      (fun _ => rfl) (by decide) (by decide)).1,
   ((claim_C1 (fun _ => [0, 0]) ⟨"m", 2, 1, 1, 2, 2, false⟩ ["a", "b", "c"]
      (fun _ => rfl) (by decide) (by decide)).2.2.2 1 "b" rfl).2⟩

/-- C6: for N > request_limit, `embed_many` partitions the input into
consecutive, non-overlapping chunks of size `request_limit` (the final chunk
possibly shorter and never empty), in original order: flattening the chunk
list, in order, gives back exactly the input (coverage exactly once, no gaps
or overlaps).  The provider receives exactly these chunks in order, and under
a deterministic provider each returned vector lands at its original row
index (`embed_many = texts.map f`), so batching never reorders items. -/
theorem claim_C6 (f : String → Vec) (cfg : Config) (texts : List String)
    (hD : ∀ s, (f s).length = cfg.size)
    (hreq : 0 < cfg.api_request_limit) (hlim : 0 < cfg.api_retry_limit)
    (hbig : cfg.api_request_limit < texts.length) :
    (chunkCalls texts cfg.api_request_limit
        ((texts.length + cfg.api_request_limit - 1) / cfg.api_request_limit)
        0).flatten = texts
    ∧ (∀ c : Nat, ∀ ch, (chunkCalls texts cfg.api_request_limit
          ((texts.length + cfg.api_request_limit - 1) /
            cfg.api_request_limit) 0)[c]? = some ch →
        ch ≠ [] ∧ ch.length ≤ cfg.api_request_limit
        ∧ ∀ ch', (chunkCalls texts cfg.api_request_limit
            ((texts.length + cfg.api_request_limit - 1) /
              cfg.api_request_limit) 0)[c + 1]? = some ch' →
            ch.length = cfg.api_request_limit)
    ∧ Embedding.sequence (detProvider f) cfg texts =
        (.ok (some (texts.map f)),
          chunkCalls texts cfg.api_request_limit
            ((texts.length + cfg.api_request_limit - 1) /
              cfg.api_request_limit) 0)
    ∧ (∀ i : Nat, ∀ s, texts[i]? = some s →
        (texts.map f)[i]? = some (f s)) := by
  refine ⟨?_, ?_, ?_, ?_⟩
  · rw [chunkCalls_flatten texts cfg.api_request_limit _ 0
      (by simpa using le_ceil_mul hreq texts.length), List.drop_zero]
  · intro c ch h
    rw [chunkCalls_getElem?] at h
    split at h
    · rename_i hcond
      obtain ⟨hc, hlt⟩ := hcond
      cases h
      have hlen : ((texts.drop (0 + c * cfg.api_request_limit)).take
          cfg.api_request_limit).length =
          min cfg.api_request_limit
            (texts.length - (0 + c * cfg.api_request_limit)) := by
        simp [List.length_take, List.length_drop]
      refine ⟨List.ne_nil_of_length_pos (by omega), by omega, ?_⟩
      intro ch' h'
      rw [chunkCalls_getElem?] at h'
      split at h'
      · rename_i hcond'
        obtain ⟨-, hlt'⟩ := hcond'
        have hmul : (c + 1) * cfg.api_request_limit =
            c * cfg.api_request_limit + cfg.api_request_limit :=
          Nat.succ_mul ..
        omega
      · cases h'
    · cases h
  · rw [sequence_det f cfg texts hD hreq hlim, if_neg (by omega)]
  · intro i s hs
    rw [List.getElem?_map, hs]
    rfl

theorem claim_C6_witness :
    (chunkCalls ["a", "b", "c"] 2 2 0).flatten = ["a", "b", "c"]
    ∧ Embedding.sequence (detProvider (fun _ => ([0] : Vec)))
        ⟨"m", 2, 1, 1, 2, 1, false⟩ ["a", "b", "c"] =
      (.ok (some [[0], [0], [0]]), chunkCalls ["a", "b", "c"] 2 2 0) :=
  ⟨(claim_C6 (fun _ => [0]) ⟨"m", 2, 1, 1, 2, 1, false⟩ ["a", "b", "c"]
      (fun _ => rfl) (by decide) (by decide) (by decide)).1,
   (claim_C6 (fun _ => [0]) ⟨"m", 2, 1, 1, 2, 1, false⟩ ["a", "b", "c"]
      (fun _ => rfl) (by decide) (by decide) (by decide)).2.2.1⟩

/-- C4: for N > request_limit, if the provider succeeds (first try) on every
chunk before chunk k (0-indexed) and fails on every attempt for chunk k,
`embed_many` returns, without raising, the (N, D) matrix whose rows before
chunk k's start are the vectors of the processed chunks and whose rows from
chunk k's start onward are all-zero; and the provider traffic is exactly the
earlier chunks (one call each) followed by `retry_limit` calls for chunk k —
no call is made for any later chunk. -/
theorem claim_C4 (M : Model) (cfg : Config) (texts : List String)
    (f : String → Vec) (k : Nat)
    (hD : ∀ s, (f s).length = cfg.size)
    (hreq : 0 < cfg.api_request_limit) (hlim : 0 < cfg.api_retry_limit)
    (hbig : cfg.api_request_limit < texts.length)
    (hk : k * cfg.api_request_limit < texts.length)
    (hs : ∀ m < k, M.getEmbeddings
        ((texts.drop (m * cfg.api_request_limit)).take
          cfg.api_request_limit) 0 =
      some (((texts.drop (m * cfg.api_request_limit)).take
        cfg.api_request_limit).map f))
    (hf : ∀ r, M.getEmbeddings
        ((texts.drop (k * cfg.api_request_limit)).take
          cfg.api_request_limit) r = none) :
    Embedding.sequence M cfg texts =
      (.ok (some ((texts.map f).take (k * cfg.api_request_limit)
        ++ List.replicate (texts.length - k * cfg.api_request_limit)
            (List.replicate cfg.size 0))),
       (List.range k).map (fun m =>
         (texts.drop (m * cfg.api_request_limit)).take cfg.api_request_limit)
       ++ List.replicate cfg.api_retry_limit
           ((texts.drop (k * cfg.api_request_limit)).take
             cfg.api_request_limit)) := by
  obtain ⟨af, heq, haflen, hafget⟩ := seqLoop_abort M cfg texts f hD hlim k
    ((texts.length + cfg.api_request_limit - 1) / cfg.api_request_limit) 0
    (List.replicate texts.length (List.replicate cfg.size 0))
    (by rw [List.length_replicate]) (lt_ceil_of_mul_lt hreq hk)
    (by simpa using hk) (by simpa using hs) (by simpa using hf)
  have hK : k * cfg.api_request_limit ≤ texts.length := by omega
  have htk : ((texts.map f).take (k * cfg.api_request_limit)).length =
      k * cfg.api_request_limit := by
    rw [List.length_take, List.length_map]
    omega
  have haf : af = (texts.map f).take (k * cfg.api_request_limit)
      ++ List.replicate (texts.length - k * cfg.api_request_limit)
          (List.replicate cfg.size 0) := by
    apply List.ext_getElem?
    intro m
    rw [hafget m, List.getElem?_append, htk]
    by_cases hm : m < k * cfg.api_request_limit
    · rw [if_pos (by simpa using hm), if_pos hm, List.getElem?_take,
        if_pos hm]
    · rw [if_neg (by simpa using hm), if_neg hm, List.getElem?_replicate,
        List.getElem?_replicate]
      by_cases hmn : m < texts.length
      · rw [if_pos hmn, if_pos (by omega)]
      · rw [if_neg hmn, if_neg (by omega)]
  have hz : cfg.api_request_limit ≠ 0 := by omega
  have hn : ¬texts.length ≤ cfg.api_request_limit := by omega
  rw [Embedding.sequence]
  simp only [if_neg hn, if_neg hz, heq, ← haf]
  simp only [Nat.zero_add]

theorem claim_C4_witness :
    Embedding.sequence
      ⟨fun input _ => if input = ["a", "b"]
        then some (input.map (fun _ => ([7] : Vec))) else none⟩
      ⟨"m", 2, 2, 1, 2, 1, false⟩ ["a", "b", "c", "d"] =
      (.ok (some [[7], [7], [0], [0]]),
       [["a", "b"], ["c", "d"], ["c", "d"]]) := by
  have h := claim_C4
    ⟨fun input _ => if input = ["a", "b"]
      then some (input.map (fun _ => ([7] : Vec))) else none⟩
    ⟨"m", 2, 2, 1, 2, 1, false⟩ ["a", "b", "c", "d"] (fun _ => [7]) 1
    (fun _ => rfl) (by decide) (by decide) (by decide) (by decide)
    (by intro m hm; interval_cases m; rfl) (fun r => rfl)
  exact h

/-- C5, counterexample to the claim as stated: the claim says that for every
N ≥ 0, *including N ≤ request_limit*, a wholly failed `embed_many` call
returns a dense (N, D) matrix.  With the constructed configuration
(request_limit 5) and a provider failing every attempt, one input string
(N = 1 ≤ 5) makes `sequence` return the backoff primitive's `None` sentinel
directly — an absent result, not a matrix of any shape. -/
theorem claim_C5_counterexample :
    (Embedding.sequence ⟨fun _ _ => none⟩ ⟨"m", 5, 5, 5, 2, 3, false⟩
      ["a"]).1 = .ok none
    ∧ ∀ mat : List Vec, (Embedding.sequence ⟨fun _ _ => none⟩
        ⟨"m", 5, 5, 5, 2, 3, false⟩ ["a"]).1 ≠ .ok (some mat) := by
  have h1 : (Embedding.sequence ⟨fun _ _ => none⟩ ⟨"m", 5, 5, 5, 2, 3, false⟩
      ["a"]).1 = .ok none := by rfl
  refine ⟨h1, fun mat h => ?_⟩
  rw [h1] at h
  exact Option.noConfusion (Except.ok.inj h)

/-- C5 amended: for N > request_limit (with positive request and retry limits
and a provider honouring the one-vector-per-input, width-D contract on
successes), a partially or wholly failed `embed_many` call never raises and
never returns an absent result: it returns a dense (N, D) matrix in which
failure is signalled solely by all-zero rows.  For N ≤ request_limit,
however, a wholly failed call returns the no-result `None` sentinel instead
of a matrix, so callers must also detect that absence. -/
theorem claim_C5 :
    (∀ (M : Model) (cfg : Config) (texts : List String),
      wellBehaved M cfg.size → 0 < cfg.api_request_limit →
      cfg.api_request_limit < texts.length →
      ∃ af calls, Embedding.sequence M cfg texts = (.ok (some af), calls)
        ∧ af.length = texts.length ∧ ∀ v ∈ af, v.length = cfg.size)
    ∧ (∀ (M : Model) (cfg : Config) (texts : List String),
        texts.length ≤ cfg.api_request_limit →
        (∀ r < cfg.api_retry_limit, M.getEmbeddings texts r = none) →
        (Embedding.sequence M cfg texts).1 = .ok none) := by
  constructor
  · intro M cfg texts hwb hreq hbig
    obtain ⟨af, calls, heq, haflen, hafv⟩ := seqLoop_wb M cfg texts hwb
      ((texts.length + cfg.api_request_limit - 1) / cfg.api_request_limit) 0
      (List.replicate texts.length (List.replicate cfg.size 0))
      (by rw [List.length_replicate])
      (fun v hv => by rw [List.eq_of_mem_replicate hv, List.length_replicate])
    refine ⟨af, calls, ?_, haflen, hafv⟩
    have hz : cfg.api_request_limit ≠ 0 := by omega
    have hn : ¬texts.length ≤ cfg.api_request_limit := by omega
    rw [Embedding.sequence]
    simp only [if_neg hn, if_neg hz, heq]
  · intro M cfg texts hn hfail
    have hb := backoff_allfail M cfg texts hfail
    rw [Embedding.sequence, if_pos hn]
    simp only [hb]

theorem claim_C5_witness :
    ((Embedding.sequence (detProvider (fun _ => ([0, 0] : Vec)))
        ⟨"m", 1, 1, 1, 2, 2, false⟩ ["a", "b"]).1 ≠ .ok none)
    ∧ (Embedding.sequence ⟨fun _ _ => none⟩ ⟨"m", 2, 2, 1, 2, 2, false⟩
        ["c"]).1 = .ok none := by
  constructor
  · have hwb : wellBehaved (detProvider (fun _ => ([0, 0] : Vec)))
        (Config.mk "m" 1 1 1 2 2 false).size := by
      intro input r result h
      cases h
      constructor
      · rw [List.length_map]
      · intro v hv
        obtain ⟨s, -, rfl⟩ := List.mem_map.mp hv
        rfl
    obtain ⟨af, calls, heq, -, -⟩ := claim_C5.1
      (detProvider (fun _ => ([0, 0] : Vec))) ⟨"m", 1, 1, 1, 2, 2, false⟩
      ["a", "b"] hwb (by decide) (by decide)
    rw [heq]
    intro h
    exact Option.noConfusion (Except.ok.inj h)
  · exact claim_C5.2 ⟨fun _ _ => none⟩ ⟨"m", 2, 2, 1, 2, 2, false⟩ ["c"]
      (by decide) (fun r _ => rfl)

/-- If attempts before `r` fail and attempt `r` succeeds, `embed_one` returns
the sole vector of that attempt's result (helper for C8). -/
theorem string_first_success (M : Model) (cfg : Config) (s : String)
    (hwb : wellBehaved M cfg.size) (r : Nat) (result : List Vec)
    (hr : r < cfg.api_retry_limit)
    (hfail : ∀ j < r, M.getEmbeddings [s] j = none)
    (hsucc : M.getEmbeddings [s] r = some result) :
    ∃ v, result = [v] ∧ (Embedding.string M cfg s).1 = .ok v := by
  have h := backoffAux_success M [s] cfg.api_retry_delay
    cfg.api_backoff_factor result cfg.api_retry_limit r 0 hr
    (fun j hj => by simpa using hfail j hj) (by simpa using hsucc)
  have hlen : result.length = 1 := by simpa using (hwb [s] r result hsucc).1
  obtain ⟨v, rfl⟩ := List.length_eq_one.mp hlen
  refine ⟨v, rfl, ?_⟩
  rw [Embedding.string]
  simp only [Embedding.get_embeddings_with_backoff, h]
  rfl

/-- C8: `embed_one` wraps its input in a singleton batch and delegates to the
retry primitive — every provider call it causes carries exactly `[s]`, and its
call trace is that of the primitive on `[s]`.  Under a contract-honouring
provider it fails (a `TypeError` propagates from subscripting the `None`
sentinel) iff every retry attempt for the singleton batch is exhausted; when
the first success comes at any attempt `r`, it returns that attempt's sole
vector, so failing on some but not all attempts never makes it fail. -/
theorem claim_C8 (M : Model) (cfg : Config) (s : String)
    (hwb : wellBehaved M cfg.size) :
    (∀ b ∈ (Embedding.string M cfg s).2, b = [s])
    ∧ (Embedding.string M cfg s).2 =
        (Embedding.get_embeddings_with_backoff M cfg [s]).calls
    ∧ ((∃ e, (Embedding.string M cfg s).1 = .error e) ↔
        (∀ r < cfg.api_retry_limit, M.getEmbeddings [s] r = none))
    ∧ (∀ (r : Nat) (result : List Vec), r < cfg.api_retry_limit →
        (∀ j < r, M.getEmbeddings [s] j = none) →
        M.getEmbeddings [s] r = some result →
        ∃ v, result = [v] ∧ (Embedding.string M cfg s).1 = .ok v) := by
  refine ⟨?_, rfl, ?_,
    fun r result hr hfail hsucc =>
      string_first_success M cfg s hwb r result hr hfail hsucc⟩
  · intro b hb
    exact backoffAux_calls_mem M [s] cfg.api_retry_delay
      cfg.api_backoff_factor cfg.api_retry_limit 0 b hb
  · constructor
    · rintro ⟨e, he⟩
      by_contra hna
      push_neg at hna
      obtain ⟨r, hr, hne⟩ := hna
      have hex : ∃ j, (M.getEmbeddings [s] j).isSome :=
        ⟨r, Option.isSome_iff_ne_none.mpr hne⟩
      obtain ⟨result, hres⟩ :=
        Option.isSome_iff_exists.mp (Nat.find_spec hex)
      have hmin : ∀ j < Nat.find hex, M.getEmbeddings [s] j = none :=
        fun j hj =>
          Option.not_isSome_iff_eq_none.mp (Nat.find_min hex hj)
      have hr0 : Nat.find hex < cfg.api_retry_limit :=
        lt_of_le_of_lt
          (Nat.find_min' hex (Option.isSome_iff_ne_none.mpr hne)) hr
      obtain ⟨v, -, hok⟩ :=
        string_first_success M cfg s hwb (Nat.find hex) result hr0 hmin hres
      rw [hok] at he
      exact Except.noConfusion he
    · intro hall
      have hb := backoff_allfail M cfg [s] hall
      refine ⟨.typeError, ?_⟩
      rw [Embedding.string]
      simp only [hb]

theorem claim_C8_witness :
    (Embedding.string
        ⟨fun input r => if r = 0 then none
          else some (input.map (fun _ => ([7] : Vec)))⟩
        ⟨"m", 5, 3, 1, 2, 1, false⟩ "x").2 =
      (Embedding.get_embeddings_with_backoff
        ⟨fun input r => if r = 0 then none
          else some (input.map (fun _ => ([7] : Vec)))⟩
        ⟨"m", 5, 3, 1, 2, 1, false⟩ ["x"]).calls
    ∧ (Embedding.string
        ⟨fun input r => if r = 0 then none
          else some (input.map (fun _ => ([7] : Vec)))⟩
        ⟨"m", 5, 3, 1, 2, 1, false⟩ "x").1 = .ok [7] := by
  have hwb : wellBehaved
      ⟨fun input r => if r = 0 then none
        else some (input.map (fun _ => ([7] : Vec)))⟩
      (Config.mk "m" 5 3 1 2 1 false).size := by
    intro input r result h
    dsimp only at h
    split at h
    · exact Option.noConfusion h
    · cases h
      constructor
      · rw [List.length_map]
      · intro v hv
        obtain ⟨t, -, rfl⟩ := List.mem_map.mp hv
        rfl
  have h := claim_C8
    ⟨fun input r => if r = 0 then none
      else some (input.map (fun _ => ([7] : Vec)))⟩
    ⟨"m", 5, 3, 1, 2, 1, false⟩ "x" hwb
  refine ⟨h.2.1, ?_⟩
  obtain ⟨v, hv, hok⟩ := h.2.2.2 1 [[7]] (by decide)
    (by intro j hj; interval_cases j; rfl) rfl
  cases hv
  exact hok

/-- C9, counterexample to the claim as stated: the claim says `_sequence`
"keeps only the last attempt's outcome".  With `retry_limit = 2` and a
provider that succeeds on attempt 0 with `[[1]]` and fails on attempt 1 (the
last attempt), `_sequence` returns `[[1]]` — the outcome of attempt 0, kept
because a failing attempt leaves `embed` unchanged — even though the last
attempt's outcome was a failure. -/
theorem claim_C9_counterexample :
    (Embedding.sequenceDup ⟨fun _ r => if r = 0 then some [[1]] else none⟩
      ⟨"m", 5, 2, 1, 2, 1, false⟩ ["a"]).1 = .ok [[1]]
    ∧ (Model.mk (fun _ r => if r = 0 then some [[1]] else none)).getEmbeddings
        ["a"] 1 = none
    ∧ (Model.mk (fun _ r => if r = 0 then some [[1]] else none)).getEmbeddings
        ["a"] 0 = some [[1]] :=
  ⟨rfl, rfl, rfl⟩

/-- C9 amended: the second, near-duplicate retry implementation
(`Embedding._sequence`) is not equivalent to the call-with-backoff primitive:
it swallows every provider exception unconditionally without counting
failures, performs exactly `retry_limit` provider calls regardless of earlier
successes instead of returning on the first success, keeps the outcome of the
*last successful* attempt (an earlier success survives failures after it),
and raises (`TypeError`) rather than returning the `None` sentinel when every
attempt fails; concretely, on a batch succeeding at attempt 0 with
`retry_limit = 2` it makes 2 provider calls where the backoff primitive makes
exactly 1. -/
theorem claim_C9 :
    (∀ (M : Model) (cfg : Config) (input : List String),
      (Embedding.sequenceDup M cfg input).2 = cfg.api_retry_limit)
    ∧ (∀ (M : Model) (cfg : Config) (input : List String) (j : Nat)
        (result : List Vec), j < cfg.api_retry_limit →
        M.getEmbeddings input j = some result →
        (∀ j', j < j' → j' < cfg.api_retry_limit →
          M.getEmbeddings input j' = none) →
        (Embedding.sequenceDup M cfg input).1 = .ok result)
    ∧ (∀ (M : Model) (cfg : Config) (input : List String),
        (∀ r < cfg.api_retry_limit, M.getEmbeddings input r = none) →
        (Embedding.sequenceDup M cfg input).1 = .error .typeError
        ∧ (Embedding.get_embeddings_with_backoff M cfg input).res = none)
    ∧ (Embedding.sequenceDup ⟨fun _ r => if r = 0 then some [[1]] else none⟩
        ⟨"m", 5, 2, 1, 2, 1, false⟩ ["a"]).2 = 2
    ∧ (Embedding.get_embeddings_with_backoff
        ⟨fun _ r => if r = 0 then some [[1]] else none⟩
        ⟨"m", 5, 2, 1, 2, 1, false⟩ ["a"]).calls.length = 1 := by
  refine ⟨?_, ?_, ?_, rfl, rfl⟩
  · intro M cfg input
    rw [Embedding.sequenceDup]
    have h := sequenceDupAux_calls M input cfg.api_retry_limit 0 none
    cases hres : (Embedding.sequenceDupAux M input cfg.api_retry_limit
        0 none).1 with
    | none => simpa using h
    | some embed => simpa using h
  · intro M cfg input j result hj hsucc hafter
    have h := sequenceDupAux_last_success M input result
      cfg.api_retry_limit j 0 none hj (by simpa using hsucc)
      (fun j' h1 h2 => by simpa using hafter j' h1 h2)
    rw [Embedding.sequenceDup]
    simp only [h]
  · intro M cfg input hall
    have h := sequenceDupAux_allfail M input cfg.api_retry_limit 0 none
      (fun j hj => by simpa using hall j hj)
    constructor
    · rw [Embedding.sequenceDup]
      simp only [h]
    · exact (backoffAux_res_none_iff M input cfg.api_retry_delay
        cfg.api_backoff_factor cfg.api_retry_limit 0).mpr
        (fun j hj => by simpa using hall j hj)

theorem claim_C9_witness :
    (Embedding.sequenceDup (detProvider (fun _ => ([3] : Vec)))
      ⟨"m", 5, 4, 1, 2, 1, false⟩ ["a", "b"]).2 = 4
    ∧ (Embedding.sequenceDup ⟨fun _ _ => none⟩
        ⟨"m", 5, 4, 1, 2, 1, false⟩ ["a", "b"]).1 = .error .typeError
    ∧ (Embedding.get_embeddings_with_backoff ⟨fun _ _ => none⟩
        ⟨"m", 5, 4, 1, 2, 1, false⟩ ["a", "b"]).res = none
    ∧ (Embedding.sequenceDup (detProvider (fun _ => ([3] : Vec)))
        ⟨"m", 5, 4, 1, 2, 1, false⟩ ["a", "b"]).1 = .ok [[3], [3]] := by
  have h3 := claim_C9.2.2.1 ⟨fun _ _ => none⟩ ⟨"m", 5, 4, 1, 2, 1, false⟩
    ["a", "b"] (fun r _ => rfl)
  refine ⟨claim_C9.1 (detProvider (fun _ => ([3] : Vec)))
    ⟨"m", 5, 4, 1, 2, 1, false⟩ ["a", "b"], h3.1, h3.2, ?_⟩
  exact claim_C9.2.1 (detProvider (fun _ => ([3] : Vec)))
    ⟨"m", 5, 4, 1, 2, 1, false⟩ ["a", "b"] 3 [[3], [3]] (by decide) rfl
    (by intro j' h1 h2; have h2b : j' < 4 := h2; omega)

end PyGCP
